import Mathlib

/-!
Verification of the hype-detection core of a Twitch chat bot.

The development shallowly embeds the bot's message-handling functions:
the per-channel message window and duplicate-counting hype detector
(`enqueueChatMessage`, `detectHype`), the enqueue filter
(`filterEnqueueMessage`) together with its URI regular expression, the
lodash-style leading-edge throttle, the call-pacing `limiter`, and the
moving-average sentiment window (`updateMessageWindow`) of the extended
variant.  All definitions are executable; theorems at the end settle the
specification claims.
-/

/-! ## Regular expressions (Brzozowski derivatives)

A small executable regex engine used to embed the program's
`REGEX_CONTAINS_URI`.  `testRE` has JavaScript `RegExp.test` semantics:
it checks whether any substring of the input is in the language. -/

inductive RE where
  | emp : RE
  | eps : RE
  | cls (p : Char → Bool) : RE
  | cat (a b : RE) : RE
  | alt (a b : RE) : RE
  | star (a : RE) : RE

def mkCat : RE → RE → RE
  | RE.emp, _ => RE.emp
  | _, RE.emp => RE.emp
  | RE.eps, b => b
  | a, RE.eps => a
  | a, b => RE.cat a b

def mkAlt : RE → RE → RE
  | RE.emp, b => b
  | a, RE.emp => a
  | a, b => RE.alt a b

def nullable : RE → Bool
  | RE.emp => false
  | RE.eps => true
  | RE.cls _ => false
  | RE.cat a b => nullable a && nullable b
  | RE.alt a b => nullable a || nullable b
  | RE.star _ => true

def rederiv (c : Char) : RE → RE
  | RE.emp => RE.emp
  | RE.eps => RE.emp
  | RE.cls p => if p c then RE.eps else RE.emp
  | RE.cat a b =>
      if nullable a then mkAlt (mkCat (rederiv c a) b) (rederiv c b)
      else mkCat (rederiv c a) b
  | RE.alt a b => mkAlt (rederiv c a) (rederiv c b)
  | RE.star a => mkCat (rederiv c a) (RE.star a)

def rmatch (r : RE) : List Char → Bool
  | [] => nullable r
  | c :: cs => rmatch (rederiv c r) cs

def chrRE (c : Char) : RE := RE.cls (fun x => x = c)

def strRE (s : String) : RE := s.data.foldr (fun c r => mkCat (chrRE c) r) RE.eps

def plusRE (r : RE) : RE := RE.cat r (RE.star r)

def anyStar : RE := RE.star (RE.cls (fun _ => true))

/-- JavaScript `regex.test(s)`: some substring of `s` matches `r`. -/
def testRE (r : RE) (s : String) : Bool :=
  rmatch (RE.cat anyStar (RE.cat r anyStar)) s.data

/-! ## The program's URI regexes -/

/-- Scheme alternation `(http|ftp|https)` followed by `://`. -/
def schemeRE : RE := RE.cat (mkAlt (strRE "http") (mkAlt (strRE "ftp") (strRE "https"))) (strRE "://")

/-- JS `.` : any character except line terminators. -/
def dotRE : RE :=
  RE.cls (fun c => !(c = '\n' || c = '\r' || c = Char.ofNat 0x2028 || c = Char.ofNat 0x2029))

def inChars (cs : List Char) : RE := RE.cls (fun c => cs.contains c)

/-- The regex of `src/unnamed/part_000` line 49, as it actually is at run
time: the pattern is built from the plain string literal
`'(http|ftp|https):\/\/([\w_-]+(?:.[w_-]+)+)([\w.,@?^=%&:\/~+#-]*[\w@?^=%&\/~+#-])'`,
in which the backslashes are consumed by the string literal, so every
`\w` becomes the literal character `w` and `\.` inside the group became a
plain `.` (any character).  The effective pattern is
`(http|ftp|https)://([w_-]+(?:.[w_-]+)+)([w.,@?^=%&:/~+#-]*[w@?^=%&/~+#-])`. -/
def uriPatternBroken : RE :=
  RE.cat schemeRE
    (RE.cat (plusRE (inChars ['w', '_', '-']))
      (RE.cat (plusRE (RE.cat dotRE (plusRE (inChars ['w', '_', '-']))))
        (RE.cat (RE.star (inChars ['w', '.', ',', '@', '?', '^', '=', '%', '&', ':', '/', '~', '+', '#', '-']))
          (inChars ['w', '@', '?', '^', '=', '%', '&', '/', '~', '+', '#', '-']))))

/-- JS `\w`: `[A-Za-z0-9_]`. -/
def wordChar (c : Char) : Bool := c.isAlpha || c.isDigit || c = '_'

/-- The properly escaped URI regex used by the moving-average variant
(`src/README.md` line 516) and described by the spec:
`(http|ftp|https)://([\w_-]+(?:\.[\w_-]+)+)([\w.,@?^=%&:/~+#-]*[\w@?^=%&/~+#-])`. -/
def uriPatternEscaped : RE :=
  RE.cat schemeRE
    (RE.cat (plusRE (RE.cls (fun c => wordChar c || c = '_' || c = '-')))
      (RE.cat (plusRE (RE.cat (chrRE '.') (plusRE (RE.cls (fun c => wordChar c || c = '_' || c = '-')))))
        (RE.cat (RE.star (RE.cls (fun c => wordChar c || (['.', ',', '@', '?', '^', '=', '%', '&', ':', '/', '~', '+', '#', '-'] : List Char).contains c)))
          (RE.cls (fun c => wordChar c || (['@', '?', '^', '=', '%', '&', '/', '~', '+', '#', '-'] : List Char).contains c)))))

/-! ## String helpers mirroring JavaScript behaviour -/

/-- JS `message.charAt(0) === '!'` (`charAt(0)` of the empty string is
`""`, which is not `'!'`). -/
def firstCharIsBang (s : String) : Bool :=
  match s.data with
  | [] => false
  | c :: _ => c = '!'

/-- Occurrences of `a` in `l`. -/
def occCount {α : Type} [DecidableEq α] (a : α) : List α → Nat
  | [] => 0
  | b :: l => (if b = a then 1 else 0) + occCount a l

/-- JS `s.includes(sub)`. -/
def strHasPrefixChars : List Char → List Char → Bool
  | [], _ => true
  | _ :: _, [] => false
  | c :: cs, d :: ds => c = d && strHasPrefixChars cs ds

def jsIncludesChars (sub : List Char) : List Char → Bool
  | [] => strHasPrefixChars sub []
  | c :: cs => strHasPrefixChars sub (c :: cs) || jsIncludesChars sub cs

def jsIncludes (s sub : String) : Bool := jsIncludesChars sub.data s.data

/-- JS `s.substring(a, b)`: indices clamped to `[0, length]` and swapped
when `a > b`. -/
def jsSubstring (s : String) (a b : Nat) : String :=
  let n := s.data.length
  let x := min a n
  let y := min b n
  String.mk ((s.data.drop (min x y)).take (max x y - min x y))

/-- JS `s.toLowerCase()` (character-wise ASCII lowering, as exercised by
this program's ASCII usernames and marker tokens). -/
def strToLower (s : String) : String := String.mk (s.data.map Char.toLower)

/-- JS `channel.replace('#', '')`: removes the first occurrence of `'#'`. -/
def removeFirstHashChars : List Char → List Char
  | [] => []
  | c :: rest => if c = '#' then rest else c :: removeFirstHashChars rest

def removeFirstHash (s : String) : String := String.mk (removeFirstHashChars s.data)

/-! ## Hype core: filter, window, detector, enqueue

Embeds `src/unnamed/part_000` lines 140-245 and the `PRIVMSG` handler.
The mutable globals become an explicit state: `queues` models the
`messageQueues` object (a missing key behaves as `[]`, matching the
`Array.isArray` lazy-initialisation), and `emits` records, in order, the
`(channel, message)` arguments of every call to
`sendHypeMessageThrottled` made by `detectHype`. -/

def HYPE_USER_IGNORE_LIST : List String := ["nightbot"]

/-- Configurable hype parameters (`HYPE_MIN_MSG_LEN`, `HYPE_MAX_MSG_LEN`,
`HYPE_MAX_QUEUE_LEN`, `HYPE_THRESHOLD`). -/
structure HypeConfig where
  minLen : Nat
  maxLen : Nat
  maxQueueLen : Nat
  threshold : Nat

/-- The constants of `src/unnamed/part_000` lines 28-32. -/
def cfgMain : HypeConfig := ⟨1, 200, 8, 3⟩

/-- The constants of the moving-average variant (`src/README.md` lines 495-498). -/
def cfgMA : HypeConfig := ⟨1, 256, 10, 5⟩

structure HypeState where
  queues : String → List String
  emits : List (String × String)

def initState : HypeState := ⟨fun _ => [], []⟩

/-- Pointwise update of the `messageQueues` object. -/
def qUpdate (f : String → List String) (ch : String) (v : List String) : String → List String :=
  fun c => if c = ch then v else f c

/-- `filterEnqueueMessage` of `src/unnamed/part_000` lines 230-245, with
the regex the program actually built (see `uriPatternBroken`). -/
def filterEnqueueMessage (channel username message : String) (isModerator : Bool) : Bool :=
  let _ := channel
  isModerator || HYPE_USER_IGNORE_LIST.contains (strToLower username)
    || firstCharIsBang message || testRE uriPatternBroken message

/-- The counting loop of `detectHype`: threads the `messageCounts` object
through the queue and short-circuits at the first message whose count
reaches the threshold. -/
def detectLoop (threshold : Nat) (counts : String → Nat) : List String → Option String
  | [] => none
  | m :: rest =>
      let c := counts m + 1
      if threshold ≤ c then some m
      else detectLoop threshold (fun x => if x = m then c else counts x) rest

/-- Result of the scan of `detectHype` on a window (all counts start at 0). -/
def detectResult (threshold : Nat) (w : List String) : Option String :=
  detectLoop threshold (fun _ => 0) w

/-- `detectHype` of `src/unnamed/part_000` lines 157-174: on a hit, clear
the channel's queue and call `sendHypeMessageThrottled(channel, message)`. -/
def detectHype (threshold : Nat) (channel : String) (st : HypeState) : HypeState :=
  match detectResult threshold (st.queues channel) with
  | some m => ⟨qUpdate st.queues channel [], st.emits ++ [(channel, m)]⟩
  | none => st

/-- The capacity eviction step of `enqueueChatMessage` (lines 211-212):
`if (messageQueues[channel].length >= HYPE_MAX_QUEUE_LEN) shift()`. -/
def stepQueue (maxQueueLen : Nat) (w : List String) : List String :=
  if maxQueueLen ≤ w.length then w.drop 1 else w

/-- `enqueueChatMessage` of `src/unnamed/part_000` lines 196-219.  The
`emote` argument models the optional `emote` parameter; JS
`message = emote ? emote : message` keeps the original body when the
emote is absent or the empty string (falsy). -/
def enqueueChatMessage (cfg : HypeConfig) (channel username message : String)
    (isModerator : Bool) (emote : Option String) (st : HypeState) : HypeState :=
  let message := match emote with
    | some e => if e = "" then message else e
    | none => message
  if filterEnqueueMessage channel username message isModerator then st
  else
    let w := stepQueue cfg.maxQueueLen (st.queues channel)
    if cfg.minLen ≤ message.length ∧ message.length ≤ cfg.maxLen then
      detectHype cfg.threshold channel ⟨qUpdate st.queues channel (w ++ [message]), st.emits⟩
    else
      ⟨qUpdate st.queues channel w, st.emits⟩

/-- One inbound chat message as fed to `enqueueChatMessage`. -/
structure ChatEvent where
  channel : String
  username : String
  message : String
  isModerator : Bool
  emote : Option String

def applyEvent (cfg : HypeConfig) (st : HypeState) (ev : ChatEvent) : HypeState :=
  enqueueChatMessage cfg ev.channel ev.username ev.message ev.isModerator ev.emote st

def runEnqueues (cfg : HypeConfig) (evs : List ChatEvent) (st : HypeState) : HypeState :=
  evs.foldl (applyEvent cfg) st

/-- An inbound `PRIVMSG` event with its Twitch emote tags (`start`/`end`
index pairs). -/
structure PrivMsg where
  channel : String
  username : String
  message : String
  isModerator : Bool
  emotes : List (Nat × Nat)

/-- The `chat.on('PRIVMSG')` handler of `src/unnamed/part_000` lines
313-336, restricted to its state-changing part: extract the first
emote's spanned substring, strip the `#` from the channel name, and call
`enqueueChatMessage`. -/
def handlePrivmsg (cfg : HypeConfig) (msg : PrivMsg) (st : HypeState) : HypeState :=
  let emote : Option String :=
    match msg.emotes with
    | [] => none
    | (s, e) :: _ => some (jsSubstring msg.message s (e + 1))
  enqueueChatMessage cfg (removeFirstHash msg.channel) msg.username msg.message
    msg.isModerator emote st

/-! ## Hype-emission throttle

`sendHypeMessageThrottled = _.throttle(sendHypeMessage, HYPE_THROTTLE,
{'trailing': false})` (`src/unnamed/part_000` line 147).  Lodash's
throttle with leading edge and `trailing: false` never schedules a
deferred invocation: for a monotone sequence of call times it invokes a
call at time `t` exactly when there was no previous invocation or
`lastInvokeTime + wait ≤ t`, and otherwise drops the call, leaving the
throttle state unchanged.  The state is just the last dispatch time. -/

def throttleStep (wait : Nat) (st : Option Nat × Nat) (t : Nat) : Option Nat × Nat :=
  match st.1 with
  | none => (some t, st.2 + 1)
  | some last => if last + wait ≤ t then (some t, st.2 + 1) else (some last, st.2)

/-- Run the throttle over a (time-ordered) list of call times, returning
the last-dispatch state and the number of dispatched calls. -/
def throttleRun (wait : Nat) (calls : List Nat) : Option Nat × Nat :=
  calls.foldl (throttleStep wait) (none, 0)

/-! ## The action limiter

`limiter(fn, wait)` (`src/unnamed/part_000` lines 98-117 and
`src/app.js` lines 84-103): a FIFO queue of pending calls and a single
`isCalled` flag; `caller()` pops and executes the head when idle and
re-arms itself `wait` ms later.  The cooperative event loop is modelled
by an explicit timeline: `busy = some f` means the `setTimeout` callback
clearing `isCalled` is scheduled at time `f`; enqueue events carry their
arrival time, and all timer callbacks due before an arrival fire first. -/

structure LimSt where
  queue : List Nat
  busy : Option Nat
  execs : List (Nat × Nat)

def limInit : LimSt := ⟨[], none, []⟩

/-- The `setTimeout` callback firing at time `f`: clear `isCalled`, then
`caller()` pops and executes the head of the queue (re-arming the timer)
if the queue is non-empty. -/
def limFire (wait f : Nat) (s : LimSt) : LimSt :=
  match s.queue with
  | [] => ⟨[], none, s.execs⟩
  | a :: rest => ⟨rest, some (f + wait), s.execs ++ [(f, a)]⟩

/-- Fire every pending timer due at or before time `t` (fuelled; the
queue length bounds the number of pops). -/
def limAdvance (wait t : Nat) : Nat → LimSt → LimSt
  | 0, s => s
  | fuel + 1, s =>
      match s.busy with
      | some f => if f ≤ t then limAdvance wait t fuel (limFire wait f s) else s
      | none => s

/-- The function returned by `limiter`, called at time `ev.1` with action
`ev.2`: push the bound call, then `caller()` executes immediately when
idle. -/
def limEnqueue (wait : Nat) (s : LimSt) (ev : Nat × Nat) : LimSt :=
  let s1 := limAdvance wait ev.1 (s.queue.length + 1) s
  let s2 : LimSt := ⟨s1.queue ++ [ev.2], s1.busy, s1.execs⟩
  match s2.busy with
  | some _ => s2
  | none =>
      match s2.queue with
      | [] => s2
      | a :: rest => ⟨rest, some (ev.1 + wait), s2.execs ++ [(ev.1, a)]⟩

/-- Fire the remaining timers until the limiter is idle (fuelled). -/
def limDrain (wait : Nat) : Nat → LimSt → LimSt
  | 0, s => s
  | fuel + 1, s =>
      match s.busy with
      | some f => limDrain wait fuel (limFire wait f s)
      | none => s

/-- Enqueue all events (time-ordered `(arrivalTime, action)` pairs) and
let every scheduled timer run to quiescence. -/
def runLimiter (wait : Nat) (events : List (Nat × Nat)) : LimSt :=
  let s := events.foldl (limEnqueue wait) limInit
  limDrain wait (s.queue.length + 1) s

/-! ## Moving-average sentiment window (extended variant)

`updateMessageWindow` and the `+2`/`-2` accounting of
`src/README.md` lines 682-718 and 791-812. -/

def WINDOW_SIZE_MS : Nat := 60000

/-- The counting loop of `updateMessageWindow` lines 799-804. -/
def tallyLoop : List (Nat × String) → Nat × Nat → Nat × Nat
  | [], pn => pn
  | e :: rest, pn =>
      tallyLoop rest
        (if e.2 = "+2" then (pn.1 + 1, pn.2)
         else if e.2 = "-2" then (pn.1, pn.2 + 1) else pn)

/-- `updateMessageWindow(type)` (`src/README.md` lines 791-812): push a
`(now, type)` entry, drop entries older than the window, then compute
`positiveCount * 2 - negativeCount * 2`.  Returns the new window and the
reported moving average. -/
def updateMessageWindow (now : Nat) (ty : String) (w : List (Nat × String)) :
    List (Nat × String) × Int :=
  let w2 := (w ++ [(now, ty)]).filter (fun e => now - e.1 ≤ WINDOW_SIZE_MS)
  let pn := tallyLoop w2 (0, 0)
  (w2, (pn.1 : Int) * 2 - (pn.2 : Int) * 2)

/-- `filterEnqueueMessage` of the moving-average variant
(`src/README.md` lines 729-747), whose regex is properly escaped. -/
def filterEnqueueMessageMA (channel username message : String) (isModerator : Bool) : Bool :=
  let _ := channel
  isModerator || HYPE_USER_IGNORE_LIST.contains (strToLower username)
    || firstCharIsBang message || testRE uriPatternEscaped message

/-- State of the moving-average variant: the hype queues and emissions
plus the daily counters and the sentiment window. -/
structure SentState where
  dailyPos : Nat
  dailyNeg : Nat
  window : List (Nat × String)
  queues : String → List String
  emits : List (String × String)

def sentInit : SentState := ⟨0, 0, [], fun _ => [], []⟩

/-- The window/eviction/detection part of the moving-average variant's
`enqueueChatMessage` (`src/README.md` lines 693-707), acting on the
extended state. -/
def hypeQueueStepMA (cfg : HypeConfig) (channel message : String) (st : SentState) : SentState :=
  let w := stepQueue cfg.maxQueueLen (st.queues channel)
  if cfg.minLen ≤ message.length ∧ message.length ≤ cfg.maxLen then
    let pushed := qUpdate st.queues channel (w ++ [message])
    match detectResult cfg.threshold (pushed channel) with
    | some m =>
        { st with queues := qUpdate pushed channel [], emits := st.emits ++ [(channel, m)] }
    | none => { st with queues := pushed }
  else { st with queues := qUpdate st.queues channel w }

/-- `enqueueChatMessage` of the moving-average variant
(`src/README.md` lines 682-718): the hype-queue logic followed by the
`+2`/`-2` counter and sliding-window update (`else if`: the positive
branch has priority). -/
def enqueueChatMessageMA (cfg : HypeConfig) (now : Nat) (channel username message : String)
    (isModerator : Bool) (emote : Option String) (st : SentState) : SentState :=
  let message := match emote with
    | some e => if e = "" then message else e
    | none => message
  if filterEnqueueMessageMA channel username message isModerator then st
  else
    let st1 := hypeQueueStepMA cfg channel message st
    let lower := strToLower message
    if jsIncludes lower "+2" then
      { st1 with dailyPos := st1.dailyPos + 1, window := (updateMessageWindow now "+2" st1.window).1 }
    else if jsIncludes lower "-2" then
      { st1 with dailyNeg := st1.dailyNeg + 1, window := (updateMessageWindow now "-2" st1.window).1 }
    else st1

/-! ## Helper lemmas -/

theorem occCount_append {α : Type} [DecidableEq α] (a : α) (l1 l2 : List α) :
    occCount a (l1 ++ l2) = occCount a l1 + occCount a l2 := by
  induction l1 with
  | nil => simp [occCount]
  | cons b t ih => simp [occCount, ih]; omega

theorem occCount_eq_zero {α : Type} [DecidableEq α] (a : α) (l : List α) (h : a ∉ l) :
    occCount a l = 0 := by
  induction l with
  | nil => rfl
  | cons b t ih =>
      simp only [List.mem_cons, not_or] at h
      show (if b = a then 1 else 0) + occCount a t = 0
      rw [if_neg (fun hba : b = a => h.1 hba.symm), ih h.2]

theorem occCount_replicate (a : α) [DecidableEq α] (k : Nat) :
    occCount a (List.replicate k a) = k := by
  induction k with
  | zero => rfl
  | succ n ih => simp [List.replicate_succ, occCount, ih]; omega

/-- Specification-level reading of the detection scan: walking the window
in insertion order with the already-scanned prefix `pre`, return the
first body whose occurrence count within the scanned prefix reaches the
threshold. -/
def firstToReach (T : Nat) : List String → List String → Option String
  | _, [] => none
  | pre, m :: rest =>
      if T ≤ occCount m (pre ++ [m]) then some m else firstToReach T (pre ++ [m]) rest

theorem detectLoop_occCount (T : Nat) (w : List String) :
    ∀ pre, detectLoop T (fun x => occCount x pre) w = firstToReach T pre w := by
  induction w with
  | nil => intro pre; rfl
  | cons m rest ih =>
      intro pre
      show (if T ≤ occCount m pre + 1 then some m
            else detectLoop T (fun x => if x = m then occCount m pre + 1 else occCount x pre) rest)
          = firstToReach T pre (m :: rest)
      have hocc : occCount m (pre ++ [m]) = occCount m pre + 1 := by
        rw [occCount_append]; simp [occCount]
      have hfun : (fun x => if x = m then occCount m pre + 1 else occCount x pre)
          = fun x => occCount x (pre ++ [m]) := by
        funext x
        by_cases hx : x = m
        · subst hx; rw [if_pos rfl, occCount_append]; simp [occCount]
        · rw [if_neg hx, occCount_append]
          simp [occCount, if_neg (fun hmx : m = x => hx hmx.symm)]
      rw [hfun, ih (pre ++ [m])]
      show _ = (if T ≤ occCount m (pre ++ [m]) then some m else firstToReach T (pre ++ [m]) rest)
      rw [hocc]

theorem detectResult_eq_firstToReach (T : Nat) (w : List String) :
    detectResult T w = firstToReach T [] w := by
  have h0 : (fun _ : String => 0) = fun x : String => occCount x [] := rfl
  rw [detectResult, h0, detectLoop_occCount]

theorem firstToReach_replicate (T : Nat) (m : String) :
    ∀ (k j : Nat), j < T →
      firstToReach T (List.replicate j m) (List.replicate k m)
        = if T ≤ j + k then some m else none := by
  intro k
  induction k with
  | zero =>
      intro j hj
      rw [List.replicate, firstToReach, if_neg (by omega)]
  | succ n ih =>
      intro j hj
      rw [List.replicate_succ, firstToReach]
      have hocc : occCount m (List.replicate j m ++ [m]) = j + 1 := by
        rw [occCount_append, occCount_replicate]; simp [occCount]
      rw [hocc]
      by_cases hc : T ≤ j + 1
      · rw [if_pos hc, if_pos (by omega)]
      · rw [if_neg hc]
        have hrep : List.replicate j m ++ [m] = List.replicate (j + 1) m := by
          rw [← List.replicate_succ']
        rw [hrep, ih (j + 1) (by omega)]
        by_cases h2 : T ≤ j + 1 + n
        · rw [if_pos h2, if_pos (by omega)]
        · rw [if_neg h2, if_neg (by omega)]

theorem detectResult_replicate (T k : Nat) (m : String) (hT : 1 ≤ T) :
    detectResult T (List.replicate k m) = if T ≤ k then some m else none := by
  have h := firstToReach_replicate T m k 0 (by omega)
  rw [detectResult_eq_firstToReach]
  simpa using h

theorem detectLoop_nodup (T : Nat) (hT : 2 ≤ T) (w : List String) :
    ∀ pre, (pre ++ w).Nodup → detectLoop T (fun x => occCount x pre) w = none := by
  induction w with
  | nil => intro pre _; rfl
  | cons m rest ih =>
      intro pre hnd
      have hm : m ∉ pre := by
        have := List.disjoint_of_nodup_append hnd
        intro hmem
        exact this hmem (List.mem_cons_self m rest)
      show (if T ≤ occCount m pre + 1 then some m
            else detectLoop T (fun x => if x = m then occCount m pre + 1 else occCount x pre) rest)
          = none
      have h0 : occCount m pre = 0 := occCount_eq_zero m pre hm
      rw [if_neg (show ¬T ≤ occCount m pre + 1 by rw [h0]; omega)]
      have hfun : (fun x => if x = m then occCount m pre + 1 else occCount x pre)
          = fun x => occCount x (pre ++ [m]) := by
        funext x
        by_cases hx : x = m
        · subst hx; rw [if_pos rfl, occCount_append]; simp [occCount]
        · rw [if_neg hx, occCount_append]
          simp [occCount, if_neg (fun hmx : m = x => hx hmx.symm)]
      rw [hfun]
      apply ih
      rwa [List.append_cons] at hnd

theorem detectResult_nodup (T : Nat) (w : List String) (hT : 2 ≤ T) (hw : w.Nodup) :
    detectResult T w = none := by
  have h0 : (fun _ : String => 0) = fun x : String => occCount x [] := rfl
  rw [detectResult, h0, detectLoop_nodup T hT w [] (by simpa using hw)]

theorem qUpdate_self (f : String → List String) (ch : String) (v : List String) :
    qUpdate f ch v ch = v := if_pos rfl

theorem qUpdate_other (f : String → List String) (ch c : String) (v : List String)
    (h : c ≠ ch) : qUpdate f ch v c = f c := if_neg h

theorem detectHype_none (T : Nat) (ch : String) (st : HypeState)
    (h : detectResult T (st.queues ch) = none) : detectHype T ch st = st := by
  unfold detectHype; rw [h]

theorem detectHype_some (T : Nat) (ch : String) (st : HypeState) (m : String)
    (h : detectResult T (st.queues ch) = some m) :
    detectHype T ch st = ⟨qUpdate st.queues ch [], st.emits ++ [(ch, m)]⟩ := by
  unfold detectHype; rw [h]

theorem enqueue_unfiltered (cfg : HypeConfig) (ch user m : String) (mod : Bool)
    (st : HypeState) (hf : filterEnqueueMessage ch user m mod = false) :
    enqueueChatMessage cfg ch user m mod none st =
      if cfg.minLen ≤ m.length ∧ m.length ≤ cfg.maxLen then
        detectHype cfg.threshold ch
          ⟨qUpdate st.queues ch (stepQueue cfg.maxQueueLen (st.queues ch) ++ [m]), st.emits⟩
      else ⟨qUpdate st.queues ch (stepQueue cfg.maxQueueLen (st.queues ch)), st.emits⟩ := by
  show (if filterEnqueueMessage ch user m mod then st else _) = _
  rw [hf]
  rfl

theorem runEnqueues_append (cfg : HypeConfig) (l1 l2 : List ChatEvent) (st : HypeState) :
    runEnqueues cfg (l1 ++ l2) st = runEnqueues cfg l2 (runEnqueues cfg l1 st) :=
  List.foldl_append _ _ _ _

theorem c1_aux (cfg : HypeConfig) (ch user m : String) (mod : Bool)
    (hTK : cfg.threshold ≤ cfg.maxQueueLen)
    (hf : filterEnqueueMessage ch user m mod = false)
    (hmin : cfg.minLen ≤ m.length) (hmax : m.length ≤ cfg.maxLen) :
    ∀ k, k < cfg.threshold →
      (runEnqueues cfg (List.replicate k ⟨ch, user, m, mod, none⟩) initState).queues ch
          = List.replicate k m ∧
      (runEnqueues cfg (List.replicate k ⟨ch, user, m, mod, none⟩) initState).emits = [] := by
  intro k
  induction k with
  | zero => intro _; exact ⟨rfl, rfl⟩
  | succ n ih =>
      intro hk
      obtain ⟨hq, he⟩ := ih (by omega)
      rw [List.replicate_succ', runEnqueues_append]
      have hstep : runEnqueues cfg [⟨ch, user, m, mod, none⟩]
          (runEnqueues cfg (List.replicate n ⟨ch, user, m, mod, none⟩) initState)
          = enqueueChatMessage cfg ch user m mod none
              (runEnqueues cfg (List.replicate n ⟨ch, user, m, mod, none⟩) initState) := rfl
      rw [hstep, enqueue_unfiltered cfg ch user m mod _ hf, if_pos ⟨hmin, hmax⟩, hq]
      have hsq : stepQueue cfg.maxQueueLen (List.replicate n m) = List.replicate n m := by
        unfold stepQueue
        rw [if_neg (by rw [List.length_replicate]; omega)]
      rw [hsq, ← List.replicate_succ']
      rw [detectHype_none _ _ _ (by
        show detectResult cfg.threshold (qUpdate _ ch (List.replicate (n + 1) m) ch) = none
        rw [qUpdate_self, detectResult_replicate _ _ _ (by omega), if_neg (by omega)])]
      exact ⟨qUpdate_self _ _ _, he⟩

/-- Claim C1: for every channel and the configured threshold `T`,
inserting `T` copies of an identical, filter-eligible, length-bounded
message into the channel's initially empty window makes `detectHype`
request exactly one hype emission, for that channel and message, and
leaves the channel's window empty immediately after the triggering
insertion. -/
theorem hype_threshold_single_emission (cfg : HypeConfig) (ch user m : String) (mod : Bool)
    (hT1 : 1 ≤ cfg.threshold) (hTK : cfg.threshold ≤ cfg.maxQueueLen)
    (hf : filterEnqueueMessage ch user m mod = false)
    (hmin : cfg.minLen ≤ m.length) (hmax : m.length ≤ cfg.maxLen) :
    (runEnqueues cfg (List.replicate cfg.threshold ⟨ch, user, m, mod, none⟩) initState).emits
        = [(ch, m)] ∧
    (runEnqueues cfg (List.replicate cfg.threshold ⟨ch, user, m, mod, none⟩) initState).queues ch
        = [] := by
  obtain ⟨n, hn⟩ : ∃ n, cfg.threshold = n + 1 := ⟨cfg.threshold - 1, by omega⟩
  obtain ⟨hq, he⟩ := c1_aux cfg ch user m mod hTK hf hmin hmax n (by omega)
  rw [hn, List.replicate_succ', runEnqueues_append]
  have hstep : runEnqueues cfg [⟨ch, user, m, mod, none⟩]
      (runEnqueues cfg (List.replicate n ⟨ch, user, m, mod, none⟩) initState)
      = enqueueChatMessage cfg ch user m mod none
          (runEnqueues cfg (List.replicate n ⟨ch, user, m, mod, none⟩) initState) := rfl
  rw [hstep, enqueue_unfiltered cfg ch user m mod _ hf, if_pos ⟨hmin, hmax⟩, hq]
  have hsq : stepQueue cfg.maxQueueLen (List.replicate n m) = List.replicate n m := by
    unfold stepQueue
    rw [if_neg (by rw [List.length_replicate]; omega)]
  rw [hsq, ← List.replicate_succ']
  rw [detectHype_some _ _ _ m (by
    show detectResult cfg.threshold (qUpdate _ ch (List.replicate (n + 1) m) ch) = some m
    rw [qUpdate_self, detectResult_replicate _ _ _ (by omega), if_pos (by omega)])]
  rw [he]
  exact ⟨rfl, qUpdate_self _ _ _⟩

/-- Witness for C1 at the configuration of `src/unnamed/part_000`
(threshold 3, capacity 8) with message "POG". -/
theorem hype_threshold_single_emission_witness :
    (1 ≤ cfgMain.threshold ∧ cfgMain.threshold ≤ cfgMain.maxQueueLen ∧
      filterEnqueueMessage "chan" "alice" "POG" false = false ∧
      cfgMain.minLen ≤ "POG".length ∧ "POG".length ≤ cfgMain.maxLen) ∧
    (runEnqueues cfgMain (List.replicate cfgMain.threshold ⟨"chan", "alice", "POG", false, none⟩)
        initState).emits = [("chan", "POG")] ∧
    (runEnqueues cfgMain (List.replicate cfgMain.threshold ⟨"chan", "alice", "POG", false, none⟩)
        initState).queues "chan" = [] :=
  ⟨⟨by decide, by decide, by decide, by decide, by decide⟩,
    hype_threshold_single_emission cfgMain "chan" "alice" "POG" false
      (by decide) (by decide) (by decide) (by decide) (by decide)⟩

/-- Counterexample for C2 as stated: with threshold 2 and window
`["x", "y", "y", "x"]` (insertion order), both bodies qualify
(2 occurrences each) and the earliest-inserted qualifying body is `"x"`
(the window's first entry), yet the scan emits `"y"`, whose second
occurrence is reached first. -/
theorem detect_tiebreak_counterexample :
    detectResult 2 ["x", "y", "y", "x"] = some "y" ∧
    2 ≤ occCount "x" ["x", "y", "y", "x"] ∧
    ["x", "y", "y", "x"].getD 0 "" = "x" ∧ "y" ≠ "x" := by decide

/-- Claim C2 (amended): the detection scan walks the window in insertion
order and short-circuits at the first body whose running occurrence
count within the scanned prefix reaches the threshold; when several
bodies qualify, the body whose threshold-th occurrence appears earliest
wins — which need not be the earliest-inserted qualifying body. -/
theorem detect_first_to_reach_threshold (T : Nat) (w : List String) :
    detectResult T w = firstToReach T [] w :=
  detectResult_eq_firstToReach T w

theorem stepQueue_len_le (K : Nat) (w : List String) :
    (stepQueue K w).length ≤ w.length := by
  unfold stepQueue
  by_cases h : K ≤ w.length
  · rw [if_pos h, List.length_drop]; omega
  · rw [if_neg h]

theorem stepQueue_push_len (K : Nat) (w : List String) (m : String)
    (hK : 1 ≤ K) (h : w.length ≤ K) : (stepQueue K w ++ [m]).length ≤ K := by
  unfold stepQueue
  by_cases hc : K ≤ w.length
  · rw [if_pos hc, List.length_append, List.length_drop]
    simp only [List.length_singleton]
    omega
  · rw [if_neg hc, List.length_append]
    simp only [List.length_singleton]
    omega

theorem stepQueue_sublist (K : Nat) (w : List String) : (stepQueue K w).Sublist w := by
  unfold stepQueue
  by_cases h : K ≤ w.length
  · rw [if_pos h]; exact List.drop_sublist 1 w
  · rw [if_neg h]

theorem enqueue_filtered (cfg : HypeConfig) (ch user m : String) (mod : Bool)
    (st : HypeState) (hf : filterEnqueueMessage ch user m mod = true) :
    enqueueChatMessage cfg ch user m mod none st = st := by
  show (if filterEnqueueMessage ch user m mod then st else _) = st
  rw [hf]
  rfl

theorem enqueueChatMessage_emote (cfg : HypeConfig) (ch user m : String) (mod : Bool)
    (e : String) (st : HypeState) :
    enqueueChatMessage cfg ch user m mod (some e) st
      = enqueueChatMessage cfg ch user (if e = "" then m else e) mod none st := rfl

theorem enqueue_len_le (cfg : HypeConfig) (hK : 1 ≤ cfg.maxQueueLen) (st : HypeState)
    (h : ∀ c, (st.queues c).length ≤ cfg.maxQueueLen) (ch user m : String) (mod : Bool) :
    ∀ c, ((enqueueChatMessage cfg ch user m mod none st).queues c).length ≤ cfg.maxQueueLen := by
  intro c
  cases hfil : filterEnqueueMessage ch user m mod with
  | true => rw [enqueue_filtered cfg ch user m mod st hfil]; exact h c
  | false =>
      rw [enqueue_unfiltered cfg ch user m mod st hfil]
      by_cases hlen : cfg.minLen ≤ m.length ∧ m.length ≤ cfg.maxLen
      · rw [if_pos hlen]
        have hql : (stepQueue cfg.maxQueueLen (st.queues ch) ++ [m]).length ≤ cfg.maxQueueLen :=
          stepQueue_push_len _ _ _ hK (h ch)
        cases hdet : detectResult cfg.threshold
            (qUpdate st.queues ch (stepQueue cfg.maxQueueLen (st.queues ch) ++ [m]) ch) with
        | none =>
            rw [detectHype_none cfg.threshold ch
              ⟨qUpdate st.queues ch (stepQueue cfg.maxQueueLen (st.queues ch) ++ [m]), st.emits⟩ hdet]
            show (qUpdate st.queues ch (stepQueue cfg.maxQueueLen (st.queues ch) ++ [m]) c).length
                ≤ cfg.maxQueueLen
            by_cases hc : c = ch
            · subst hc; rw [qUpdate_self]; exact hql
            · rw [qUpdate_other _ _ _ _ hc]; exact h c
        | some mm =>
            rw [detectHype_some cfg.threshold ch
              ⟨qUpdate st.queues ch (stepQueue cfg.maxQueueLen (st.queues ch) ++ [m]), st.emits⟩
              mm hdet]
            show (qUpdate (qUpdate st.queues ch (stepQueue cfg.maxQueueLen (st.queues ch) ++ [m]))
                ch [] c).length ≤ cfg.maxQueueLen
            by_cases hc : c = ch
            · subst hc; rw [qUpdate_self]; exact Nat.zero_le _
            · rw [qUpdate_other _ _ _ _ hc, qUpdate_other _ _ _ _ hc]; exact h c
      · rw [if_neg hlen]
        show (qUpdate st.queues ch (stepQueue cfg.maxQueueLen (st.queues ch)) c).length
            ≤ cfg.maxQueueLen
        by_cases hc : c = ch
        · subst hc; rw [qUpdate_self]; exact le_trans (stepQueue_len_le _ _) (h c)
        · rw [qUpdate_other _ _ _ _ hc]; exact h c

theorem applyEvent_len_le (cfg : HypeConfig) (hK : 1 ≤ cfg.maxQueueLen) (st : HypeState)
    (h : ∀ c, (st.queues c).length ≤ cfg.maxQueueLen) (ev : ChatEvent) :
    ∀ c, ((applyEvent cfg st ev).queues c).length ≤ cfg.maxQueueLen := by
  have happ : applyEvent cfg st ev
      = enqueueChatMessage cfg ev.channel ev.username ev.message ev.isModerator ev.emote st := rfl
  rw [happ]
  cases hem : ev.emote with
  | none => exact enqueue_len_le cfg hK st h _ _ _ _
  | some e =>
      rw [enqueueChatMessage_emote]
      exact enqueue_len_le cfg hK st h _ _ _ _

theorem runEnqueues_len_le (cfg : HypeConfig) (hK : 1 ≤ cfg.maxQueueLen) :
    ∀ (evs : List ChatEvent) (st : HypeState),
      (∀ c, (st.queues c).length ≤ cfg.maxQueueLen) →
      ∀ c, ((runEnqueues cfg evs st).queues c).length ≤ cfg.maxQueueLen := by
  intro evs
  induction evs with
  | nil => intro st h c; exact h c
  | cons ev rest ih =>
      intro st h c
      have hc : runEnqueues cfg (ev :: rest) st = runEnqueues cfg rest (applyEvent cfg st ev) := rfl
      rw [hc]
      exact ih (applyEvent cfg st ev) (applyEvent_len_le cfg hK st h ev) c

/-- The last `K` entries of a list (oldest-first). -/
def lastN (K : Nat) (l : List String) : List String := l.drop (l.length - K)

theorem lastN_of_le (K : Nat) (l : List String) (h : l.length ≤ K) : lastN K l = l := by
  unfold lastN
  rw [show l.length - K = 0 by omega, List.drop_zero]

theorem lastN_cons (K : Nat) (x : String) (l : List String) (h : K ≤ l.length) :
    lastN K (x :: l) = lastN K l := by
  unfold lastN
  rw [show (x :: l).length - K = (l.length - K) + 1 by rw [List.length_cons]; omega,
    List.drop_succ_cons]

theorem lastN_step (K : Nat) (w : List String) (m : String) (rest : List String)
    (hK : 1 ≤ K) (hw : w.length ≤ K) :
    lastN K ((stepQueue K w ++ [m]) ++ rest) = lastN K (w ++ m :: rest) := by
  rw [List.append_assoc, List.singleton_append]
  unfold stepQueue
  by_cases hc : K ≤ w.length
  · rw [if_pos hc]
    cases w with
    | nil => simp at hc; omega
    | cons a w2 =>
        rw [List.drop_one, List.tail_cons, List.cons_append]
        rw [lastN_cons K a (w2 ++ m :: rest) (by
          rw [List.length_append, List.length_cons]
          have := List.length_cons a w2
          omega)]
  · rw [if_neg hc]

theorem c3b_aux (cfg : HypeConfig) (ch user : String) (mod : Bool)
    (hK : 1 ≤ cfg.maxQueueLen) (hT : 2 ≤ cfg.threshold) :
    ∀ (msgs : List String) (st : HypeState) (w : List String),
      st.queues ch = w → w.length ≤ cfg.maxQueueLen → (w ++ msgs).Nodup →
      (∀ m ∈ msgs, filterEnqueueMessage ch user m mod = false ∧
        cfg.minLen ≤ m.length ∧ m.length ≤ cfg.maxLen) →
      (runEnqueues cfg (msgs.map fun m => ⟨ch, user, m, mod, none⟩) st).queues ch
          = lastN cfg.maxQueueLen (w ++ msgs) ∧
      (runEnqueues cfg (msgs.map fun m => ⟨ch, user, m, mod, none⟩) st).emits = st.emits := by
  intro msgs
  induction msgs with
  | nil =>
      intro st w hw hwl _ _
      rw [List.map_nil]
      exact ⟨by rw [List.append_nil, lastN_of_le _ _ hwl]; exact hw, rfl⟩
  | cons m rest ih =>
      intro st w hw hwl hnd hmsgs
      obtain ⟨hmf, hmlo, hmhi⟩ := hmsgs m (List.mem_cons_self m rest)
      rw [List.map_cons]
      have hstep : runEnqueues cfg (⟨ch, user, m, mod, none⟩ :: rest.map fun x => ⟨ch, user, x, mod, none⟩) st
          = runEnqueues cfg (rest.map fun x => ⟨ch, user, x, mod, none⟩)
              (enqueueChatMessage cfg ch user m mod none st) := rfl
      rw [hstep, enqueue_unfiltered cfg ch user m mod st hmf, if_pos ⟨hmlo, hmhi⟩, hw]
      have hsub : (stepQueue cfg.maxQueueLen w ++ [m]).Sublist (w ++ m :: rest) := by
        have h1 : (stepQueue cfg.maxQueueLen w ++ [m]).Sublist (w ++ [m]) :=
          List.Sublist.append_right (stepQueue_sublist _ _) [m]
        have h2 : (w ++ [m]).Sublist (w ++ m :: rest) :=
          List.Sublist.append_left (List.Sublist.cons₂ m (List.nil_sublist rest)) w
        exact h1.trans h2
      have hnd2 : (stepQueue cfg.maxQueueLen w ++ [m]).Nodup := hnd.sublist hsub
      have hdet : detectResult cfg.threshold
          (qUpdate st.queues ch (stepQueue cfg.maxQueueLen w ++ [m]) ch) = none := by
        rw [qUpdate_self]
        exact detectResult_nodup _ _ hT hnd2
      rw [detectHype_none cfg.threshold ch
        ⟨qUpdate st.queues ch (stepQueue cfg.maxQueueLen w ++ [m]), st.emits⟩ hdet]
      have hih := ih ⟨qUpdate st.queues ch (stepQueue cfg.maxQueueLen w ++ [m]), st.emits⟩
        (stepQueue cfg.maxQueueLen w ++ [m]) (qUpdate_self _ _ _)
        (stepQueue_push_len _ _ _ hK hwl)
        (by
          have hsub2 : ((stepQueue cfg.maxQueueLen w ++ [m]) ++ rest).Sublist (w ++ m :: rest) := by
            have h1 : ((stepQueue cfg.maxQueueLen w ++ [m]) ++ rest).Sublist ((w ++ [m]) ++ rest) :=
              List.Sublist.append_right (List.Sublist.append_right (stepQueue_sublist _ _) [m]) rest
            have heq : (w ++ [m]) ++ rest = w ++ m :: rest := by
              rw [List.append_assoc, List.singleton_append]
            exact heq ▸ h1
          exact hnd.sublist hsub2)
        (fun x hx => hmsgs x (List.mem_cons_of_mem m hx))
      refine ⟨?_, hih.2⟩
      rw [hih.1, lastN_step cfg.maxQueueLen w m rest hK hwl]

/-- Claim C3: for every channel, after any sequence of insertions the
window's length never exceeds the configured capacity `K`; and inserting
`K + 1` distinct eligible length-bounded messages into an initially
empty window leaves exactly the last `K` of them, oldest-first (FIFO
eviction of the oldest entry on insertion at capacity). -/
theorem window_capacity_fifo (cfg : HypeConfig)
    (hK : 1 ≤ cfg.maxQueueLen) (hT : 2 ≤ cfg.threshold) :
    (∀ (evs : List ChatEvent) (c : String),
      ((runEnqueues cfg evs initState).queues c).length ≤ cfg.maxQueueLen) ∧
    (∀ (ch user : String) (mod : Bool) (msgs : List String),
      msgs.Nodup → msgs.length = cfg.maxQueueLen + 1 →
      (∀ m ∈ msgs, filterEnqueueMessage ch user m mod = false ∧
        cfg.minLen ≤ m.length ∧ m.length ≤ cfg.maxLen) →
      (runEnqueues cfg (msgs.map fun m => ⟨ch, user, m, mod, none⟩) initState).queues ch
          = msgs.drop 1 ∧
      (runEnqueues cfg (msgs.map fun m => ⟨ch, user, m, mod, none⟩) initState).emits = []) := by
  constructor
  · intro evs c
    exact runEnqueues_len_le cfg hK evs initState (fun _ => Nat.zero_le _) c
  · intro ch user mod msgs hnd hlen hmsgs
    have h := c3b_aux cfg ch user mod hK hT msgs initState [] rfl (Nat.zero_le _)
      (by simpa using hnd) hmsgs
    refine ⟨?_, h.2⟩
    rw [h.1]
    show lastN cfg.maxQueueLen ([] ++ msgs) = msgs.drop 1
    rw [List.nil_append]
    unfold lastN
    rw [hlen, show cfg.maxQueueLen + 1 - cfg.maxQueueLen = 1 by omega]

/-- Witness for C3 at the configuration of `src/unnamed/part_000`
(capacity 8): nine distinct one-letter messages leave the last eight. -/
theorem window_capacity_fifo_witness :
    (1 ≤ cfgMain.maxQueueLen ∧ 2 ≤ cfgMain.threshold ∧
      (["a", "b", "c", "d", "e", "f", "g", "h", "i"] : List String).Nodup ∧
      (["a", "b", "c", "d", "e", "f", "g", "h", "i"] : List String).length
        = cfgMain.maxQueueLen + 1) ∧
    (runEnqueues cfgMain
      ((["a", "b", "c", "d", "e", "f", "g", "h", "i"] : List String).map
        fun m => ⟨"chan", "alice", m, false, none⟩) initState).queues "chan"
      = ["b", "c", "d", "e", "f", "g", "h", "i"] ∧
    (runEnqueues cfgMain
      ((["a", "b", "c", "d", "e", "f", "g", "h", "i"] : List String).map
        fun m => ⟨"chan", "alice", m, false, none⟩) initState).emits = [] :=
  ⟨⟨by decide, by decide, by decide, by decide⟩,
    (window_capacity_fifo cfgMain (by decide) (by decide)).2 "chan" "alice" false
      ["a", "b", "c", "d", "e", "f", "g", "h", "i"] (by decide) (by decide) (by decide)⟩

/-- Claim C4: the hype-emission throttle is non-queuing and non-trailing.
A call arriving at `t1` before `t0 + wait` has elapsed is dropped
silently — the throttle state after the second call still records `t0`
and nothing is scheduled for deferred replay (the model has no pending
slot at all, matching `{'trailing': false}`) — so two emit calls
separated by less than the throttle interval dispatch exactly once. -/
theorem throttle_burst_single_dispatch (wait t0 t1 : Nat)
    (h0 : t0 ≤ t1) (h1 : t1 < t0 + wait) :
    throttleRun wait [t0, t1] = (some t0, 1) ∧
    throttleStep wait (some t0, 1) t1 = (some t0, 1) := by
  have hstep : throttleStep wait (some t0, 1) t1 = (some t0, 1) := by
    unfold throttleStep
    simp only
    rw [if_neg (by omega)]
  constructor
  · show throttleStep wait (throttleStep wait (none, 0) t0) t1 = (some t0, 1)
    have h2 : throttleStep wait (none, 0) t0 = (some t0, 1) := rfl
    rw [h2, hstep]
  · exact hstep

/-- Witness for C4 at `HYPE_THROTTLE = 20000` with calls at 0 and 100. -/
theorem throttle_burst_single_dispatch_witness :
    ((0 : Nat) ≤ 100 ∧ (100 : Nat) < 0 + 20000) ∧
    (throttleRun 20000 [0, 100] = (some 0, 1) ∧
      throttleStep 20000 (some 0, 1) 100 = (some 0, 1)) :=
  ⟨⟨by decide, by decide⟩, throttle_burst_single_dispatch 20000 0 100 (by decide) (by decide)⟩

/-- Claim C6 (code bug): `filterEnqueueMessage` is supposed to reject
messages containing a URL of the form scheme `http`/`https`/`ftp`
followed by a host and path, but the regex literal of
`src/unnamed/part_000` line 49 lost its backslashes (`'\w'` in a plain
JS string is just `'w'`), so the message
`"https://example.com/path"` — matched by the intended, properly escaped
pattern — is not matched by the regex actually built, and the filter
wrongly reports it eligible. -/
theorem url_filter_broken_regex :
    filterEnqueueMessage "somechannel" "alice" "https://example.com/path" false = false ∧
    testRE uriPatternBroken "https://example.com/path" = false ∧
    testRE uriPatternEscaped "https://example.com/path" = true := by
  refine ⟨by decide, by decide, by decide⟩

theorem tallyLoop_cons (e : Nat × String) (rest : List (Nat × String)) (pn : Nat × Nat) :
    tallyLoop (e :: rest) pn
      = tallyLoop rest
          (if e.2 = "+2" then (pn.1 + 1, pn.2)
           else if e.2 = "-2" then (pn.1, pn.2 + 1) else pn) := rfl

theorem occCount_cons {α : Type} [DecidableEq α] (a b : α) (l : List α) :
    occCount a (b :: l) = (if b = a then 1 else 0) + occCount a l := rfl

theorem tallyLoop_count (l : List (Nat × String)) :
    ∀ a b, tallyLoop l (a, b)
      = (a + occCount "+2" (l.map Prod.snd), b + occCount "-2" (l.map Prod.snd)) := by
  induction l with
  | nil =>
      intro a b
      show (a, b) = _
      rw [List.map_nil]
      show (a, b) = (a + 0, b + 0)
      rw [Prod.mk.injEq]
      exact ⟨by omega, by omega⟩
  | cons e rest ih =>
      intro a b
      rw [List.map_cons, tallyLoop_cons, occCount_cons, occCount_cons]
      by_cases hp : e.2 = "+2"
      · rw [if_pos hp, if_pos hp, if_neg (show ¬e.2 = "-2" by rw [hp]; decide), ih]
        rw [Prod.mk.injEq]
        exact ⟨by omega, by omega⟩
      · by_cases hn : e.2 = "-2"
        · rw [if_neg hp, if_pos hn, if_neg hp, if_pos hn, ih]
          rw [Prod.mk.injEq]
          exact ⟨by omega, by omega⟩
        · rw [if_neg hp, if_neg hn, if_neg hp, if_neg hn, ih]
          rw [Prod.mk.injEq]
          exact ⟨by omega, by omega⟩

/-- Claim C7: on every evaluation of the sliding sentiment window (new
event or periodic tick), every entry strictly older than
`now - windowDuration` is removed before aggregation — the surviving
window is exactly the filter of the old window plus the new entry by
`age ≤ WINDOW_SIZE_MS` — and the reported moving average equals
`2 * positiveCount - 2 * negativeCount` over the surviving entries,
where the counts tally entries of kind `"+2"` and `"-2"`. -/
theorem sentiment_window_prune_score (now : Nat) (ty : String) (w : List (Nat × String)) :
    (∀ e ∈ (updateMessageWindow now ty w).1, now ≤ e.1 + WINDOW_SIZE_MS) ∧
    (updateMessageWindow now ty w).1
      = (w ++ [(now, ty)]).filter (fun e => now ≤ e.1 + WINDOW_SIZE_MS) ∧
    (updateMessageWindow now ty w).2
      = 2 * (occCount "+2" ((updateMessageWindow now ty w).1.map Prod.snd) : Int)
        - 2 * (occCount "-2" ((updateMessageWindow now ty w).1.map Prod.snd) : Int) := by
  have hfeq : (updateMessageWindow now ty w).1
      = (w ++ [(now, ty)]).filter (fun e => now ≤ e.1 + WINDOW_SIZE_MS) := by
    show (w ++ [(now, ty)]).filter (fun e => decide (now - e.1 ≤ WINDOW_SIZE_MS)) = _
    apply List.filter_congr
    intro e _
    exact decide_eq_decide.2 (by constructor <;> (intro h2; omega))
  refine ⟨?_, hfeq, ?_⟩
  · intro e he
    rw [hfeq] at he
    have := List.of_mem_filter he
    simpa using this
  · show ((tallyLoop (updateMessageWindow now ty w).1 (0, 0)).1 : Int) * 2
        - ((tallyLoop (updateMessageWindow now ty w).1 (0, 0)).2 : Int) * 2 = _
    rw [tallyLoop_count]
    simp only [Nat.zero_add]
    ring

/-- Claim C8: a filter-eligible message whose body length lies outside
the inclusive `[minMessageLength, maxMessageLength]` range still runs
the capacity eviction: when the channel's window is at capacity,
`enqueueChatMessage` evicts the oldest entry and appends nothing, so the
window shrinks by one and no detection runs — the length-bound guard
sits after the eviction, not before the insertion step. -/
theorem length_guard_after_eviction (cfg : HypeConfig) (st : HypeState)
    (ch user m : String) (mod : Bool)
    (hK : 1 ≤ cfg.maxQueueLen)
    (hf : filterEnqueueMessage ch user m mod = false)
    (hcap : (st.queues ch).length = cfg.maxQueueLen)
    (hlen : ¬(cfg.minLen ≤ m.length ∧ m.length ≤ cfg.maxLen)) :
    (enqueueChatMessage cfg ch user m mod none st).queues ch = (st.queues ch).drop 1 ∧
    ((enqueueChatMessage cfg ch user m mod none st).queues ch).length = cfg.maxQueueLen - 1 ∧
    (enqueueChatMessage cfg ch user m mod none st).emits = st.emits := by
  rw [enqueue_unfiltered cfg ch user m mod st hf, if_neg hlen]
  have hsq : stepQueue cfg.maxQueueLen (st.queues ch) = (st.queues ch).drop 1 := by
    unfold stepQueue
    rw [if_pos (by omega)]
  refine ⟨?_, ?_, rfl⟩
  · show qUpdate st.queues ch (stepQueue cfg.maxQueueLen (st.queues ch)) ch = _
    rw [qUpdate_self, hsq]
  · show (qUpdate st.queues ch (stepQueue cfg.maxQueueLen (st.queues ch)) ch).length = _
    rw [qUpdate_self, hsq, List.length_drop]
    omega

/-- Witness for C8: a window at capacity 8 and the eligible empty
message (length 0 < `HYPE_MIN_MSG_LEN`) shrink the window to 7. -/
theorem length_guard_after_eviction_witness :
    (1 ≤ cfgMain.maxQueueLen ∧
      filterEnqueueMessage "chan" "alice" "" false = false ∧
      ((⟨qUpdate initState.queues "chan" ["a", "b", "c", "d", "e", "f", "g", "h"], []⟩ :
        HypeState).queues "chan").length = cfgMain.maxQueueLen ∧
      ¬(cfgMain.minLen ≤ "".length ∧ "".length ≤ cfgMain.maxLen)) ∧
    ((enqueueChatMessage cfgMain "chan" "alice" "" false none
        ⟨qUpdate initState.queues "chan" ["a", "b", "c", "d", "e", "f", "g", "h"], []⟩).queues "chan"
      = ((⟨qUpdate initState.queues "chan" ["a", "b", "c", "d", "e", "f", "g", "h"], []⟩ :
          HypeState).queues "chan").drop 1 ∧
      ((enqueueChatMessage cfgMain "chan" "alice" "" false none
        ⟨qUpdate initState.queues "chan" ["a", "b", "c", "d", "e", "f", "g", "h"], []⟩).queues "chan").length
        = cfgMain.maxQueueLen - 1 ∧
      (enqueueChatMessage cfgMain "chan" "alice" "" false none
        ⟨qUpdate initState.queues "chan" ["a", "b", "c", "d", "e", "f", "g", "h"], []⟩).emits
        = (⟨qUpdate initState.queues "chan" ["a", "b", "c", "d", "e", "f", "g", "h"], []⟩ :
          HypeState).emits) :=
  ⟨⟨by decide, by decide, by decide, by decide⟩,
    length_guard_after_eviction cfgMain
      ⟨qUpdate initState.queues "chan" ["a", "b", "c", "d", "e", "f", "g", "h"], []⟩
      "chan" "alice" "" false (by decide) (by decide) (by decide) (by decide)⟩

/-- Counterexample for C9 as stated: a `PRIVMSG` event that carries an
emote whose indices span an empty substring (`start = 1`, `end = 0`, so
`substring(1, 1) = ""`).  The claim says the spanned substring replaces
the body, so the window would record the emote text `""` (and, being
shorter than `HYPE_MIN_MSG_LEN`, nothing would be inserted); but
`message = emote ? emote : message` treats the empty string as falsy,
keeps the original body, and the window records the message the user
sent. -/
theorem emote_replacement_counterexample :
    jsSubstring "hi" 1 (0 + 1) = "" ∧
    (handlePrivmsg cfgMain ⟨"#chan", "alice", "hi", false, [(1, 0)]⟩ initState).queues "chan"
      = ["hi"] ∧
    ("hi" : String) ≠ "" := by
  refine ⟨by decide, by decide, by decide⟩

/-- Claim C9 (amended): for every inbound chat event carrying at least
one emote, if the substring of the original body spanned by the first
emote's indices (JS `substring(start, end + 1)` semantics) is non-empty,
it replaces the full message body before filtering, length checks,
window insertion and detection: the handler behaves exactly like
`enqueueChatMessage` run on the emote text.  When the spanned substring
is empty, the original body is kept (the replacement is a truthiness
test). -/
theorem emote_replaces_body (cfg : HypeConfig) (st : HypeState) (ev : PrivMsg)
    (s e : Nat) (rest : List (Nat × Nat))
    (hem : ev.emotes = (s, e) :: rest)
    (hne : jsSubstring ev.message s (e + 1) ≠ "") :
    handlePrivmsg cfg ev st
      = enqueueChatMessage cfg (removeFirstHash ev.channel) ev.username
          (jsSubstring ev.message s (e + 1)) ev.isModerator none st := by
  unfold handlePrivmsg
  rw [hem]
  show enqueueChatMessage cfg (removeFirstHash ev.channel) ev.username ev.message
      ev.isModerator (some (jsSubstring ev.message s (e + 1))) st = _
  rw [enqueueChatMessage_emote, if_neg hne]

/-- Witness for C9 (amended): an event whose first emote spans
`"Kappa"`; the handler enqueues the emote text. -/
theorem emote_replaces_body_witness :
    ((⟨"#chan", "alice", "Kappa hello", false, [(0, 4)]⟩ : PrivMsg).emotes = (0, 4) :: [] ∧
      jsSubstring "Kappa hello" 0 (4 + 1) ≠ "") ∧
    handlePrivmsg cfgMain ⟨"#chan", "alice", "Kappa hello", false, [(0, 4)]⟩ initState
      = enqueueChatMessage cfgMain (removeFirstHash "#chan") "alice"
          (jsSubstring "Kappa hello" 0 (4 + 1)) false none initState :=
  ⟨⟨by decide, by decide⟩,
    emote_replaces_body cfgMain initState ⟨"#chan", "alice", "Kappa hello", false, [(0, 4)]⟩
      0 4 [] rfl (by decide)⟩

/-- Claim C10: in the sentiment variant, a filter-passing message whose
lower-cased body contains both the `+2` and the `-2` marker increments
only the daily positive counter and records only a positive event in the
sliding window; the negative `else if` branch is never taken (the
positive check has strict priority). -/
theorem hypeQueueStepMA_counters (cfg : HypeConfig) (ch m : String) (st : SentState) :
    (hypeQueueStepMA cfg ch m st).dailyPos = st.dailyPos ∧
    (hypeQueueStepMA cfg ch m st).dailyNeg = st.dailyNeg ∧
    (hypeQueueStepMA cfg ch m st).window = st.window := by
  simp only [hypeQueueStepMA]
  split
  · split <;> exact ⟨rfl, rfl, rfl⟩
  · exact ⟨rfl, rfl, rfl⟩

theorem enqueueMA_unfiltered (cfg : HypeConfig) (now : Nat) (ch user m : String) (mod : Bool)
    (st : SentState) (hf : filterEnqueueMessageMA ch user m mod = false) :
    enqueueChatMessageMA cfg now ch user m mod none st =
      (if jsIncludes (strToLower m) "+2" then
        { hypeQueueStepMA cfg ch m st with
            dailyPos := (hypeQueueStepMA cfg ch m st).dailyPos + 1,
            window := (updateMessageWindow now "+2" (hypeQueueStepMA cfg ch m st).window).1 }
       else if jsIncludes (strToLower m) "-2" then
        { hypeQueueStepMA cfg ch m st with
            dailyNeg := (hypeQueueStepMA cfg ch m st).dailyNeg + 1,
            window := (updateMessageWindow now "-2" (hypeQueueStepMA cfg ch m st).window).1 }
       else hypeQueueStepMA cfg ch m st) := by
  show (if filterEnqueueMessageMA ch user m mod then st else _) = _
  rw [hf]
  rfl

theorem sentiment_positive_priority (cfg : HypeConfig) (now : Nat)
    (ch user m : String) (mod : Bool) (st : SentState)
    (hf : filterEnqueueMessageMA ch user m mod = false)
    (hp : jsIncludes (strToLower m) "+2" = true)
    (hn : jsIncludes (strToLower m) "-2" = true) :
    (enqueueChatMessageMA cfg now ch user m mod none st).dailyPos = st.dailyPos + 1 ∧
    (enqueueChatMessageMA cfg now ch user m mod none st).dailyNeg = st.dailyNeg ∧
    (enqueueChatMessageMA cfg now ch user m mod none st).window
      = (st.window ++ [(now, "+2")]).filter (fun e2 => now - e2.1 ≤ WINDOW_SIZE_MS) := by
  obtain ⟨hdp, hdn, hwin⟩ := hypeQueueStepMA_counters cfg ch m st
  rw [enqueueMA_unfiltered cfg now ch user m mod st hf, if_pos hp]
  refine ⟨?_, ?_, ?_⟩
  · show (hypeQueueStepMA cfg ch m st).dailyPos + 1 = st.dailyPos + 1
    rw [hdp]
  · show (hypeQueueStepMA cfg ch m st).dailyNeg = st.dailyNeg
    exact hdn
  · show (updateMessageWindow now "+2" (hypeQueueStepMA cfg ch m st).window).1 = _
    rw [hwin]
    rfl

/-- Witness for C10 with the message `"+2 -2"` at the moving-average
configuration. -/
theorem sentiment_positive_priority_witness :
    (filterEnqueueMessageMA "chan" "alice" "+2 -2" false = false ∧
      jsIncludes (strToLower "+2 -2") "+2" = true ∧
      jsIncludes (strToLower "+2 -2") "-2" = true) ∧
    ((enqueueChatMessageMA cfgMA 5 "chan" "alice" "+2 -2" false none sentInit).dailyPos
        = sentInit.dailyPos + 1 ∧
      (enqueueChatMessageMA cfgMA 5 "chan" "alice" "+2 -2" false none sentInit).dailyNeg
        = sentInit.dailyNeg ∧
      (enqueueChatMessageMA cfgMA 5 "chan" "alice" "+2 -2" false none sentInit).window
        = (sentInit.window ++ [(5, "+2")]).filter (fun e2 => 5 - e2.1 ≤ WINDOW_SIZE_MS)) :=
  ⟨⟨by decide, by decide, by decide⟩,
    sentiment_positive_priority cfgMA 5 "chan" "alice" "+2 -2" false sentInit
      (by decide) (by decide) (by decide)⟩

/-! ## Limiter invariants

`GoodAt wait now acts s` packages the limiter invariant at time `now`
after the actions `acts` have been requested: executed actions followed
by the pending queue list exactly the requested actions in order;
recorded executions are spaced at least `wait` apart; a pending timer is
scheduled exactly `wait` after the last execution; and an idle limiter
has an empty queue and its last execution at least `wait` in the past. -/

def GoodAt (wait now : Nat) (acts : List Nat) (s : LimSt) : Prop :=
  s.execs.map Prod.snd ++ s.queue = acts ∧
  List.Chain' (fun p q : Nat × Nat => p.1 + wait ≤ q.1) s.execs ∧
  (∀ f, s.busy = some f → ∃ p, s.execs.getLast? = some p ∧ f = p.1 + wait) ∧
  (s.busy = none → s.queue = [] ∧ ∀ p, s.execs.getLast? = some p → p.1 + wait ≤ now)

theorem goodAt_mono (wait n1 n2 : Nat) (acts : List Nat) (s : LimSt)
    (h : n1 ≤ n2) (hg : GoodAt wait n1 acts s) : GoodAt wait n2 acts s :=
  ⟨hg.1, hg.2.1, hg.2.2.1,
    fun hb => ⟨(hg.2.2.2 hb).1, fun p hp => le_trans ((hg.2.2.2 hb).2 p hp) h⟩⟩

theorem lastq_app {α : Type} (l : List α) (x : α) : (l ++ [x]).getLast? = some x :=
  List.getLast?_concat l

theorem chain_app_one (wait : Nat) (l : List (Nat × Nat)) (x : Nat × Nat)
    (hc : List.Chain' (fun p q : Nat × Nat => p.1 + wait ≤ q.1) l)
    (hlast : ∀ p, l.getLast? = some p → p.1 + wait ≤ x.1) :
    List.Chain' (fun p q : Nat × Nat => p.1 + wait ≤ q.1) (l ++ [x]) := by
  rw [List.chain'_append]
  refine ⟨hc, List.chain'_singleton x, ?_⟩
  intro p hp y hy
  rw [Option.mem_def] at hp hy
  have hyx : y = x := by
    have : some y = some x := by rw [← hy]; rfl
    injection this
  rw [hyx]
  exact hlast p hp

theorem limFire_good (wait now f : Nat) (acts : List Nat) (s : LimSt)
    (hg : GoodAt wait now acts s) (hb : s.busy = some f) (hf : f ≤ now) :
    GoodAt wait now acts (limFire wait f s) := by
  obtain ⟨q, b, ex⟩ := s
  obtain ⟨h1, h2, h3, h4⟩ := hg
  obtain ⟨p, hp, hfp⟩ := h3 f hb
  have hpl : ex.getLast? = some p := hp
  cases q with
  | nil =>
      show GoodAt wait now acts ⟨[], none, ex⟩
      refine ⟨?_, ?_, ?_, ?_⟩
      · show ex.map Prod.snd ++ [] = acts
        exact h1
      · show List.Chain' _ ex
        exact h2
      · intro f2 hf2
        cases hf2
      · intro _
        refine ⟨rfl, fun p2 hp2 => ?_⟩
        have hp2e : ex.getLast? = some p2 := hp2
        rw [hpl] at hp2e
        have hpp : p2 = p := by injection hp2e.symm
        rw [hpp, ← hfp]
        exact hf
  | cons a rest =>
      show GoodAt wait now acts ⟨rest, some (f + wait), ex ++ [(f, a)]⟩
      refine ⟨?_, ?_, ?_, ?_⟩
      · show (ex ++ [(f, a)]).map Prod.snd ++ rest = acts
        rw [List.map_append]
        show ex.map Prod.snd ++ [a] ++ rest = acts
        rw [List.append_assoc, List.singleton_append]
        exact h1
      · show List.Chain' _ (ex ++ [(f, a)])
        refine chain_app_one wait ex (f, a) h2 ?_
        intro p2 hp2
        rw [hpl] at hp2
        have hpp : p2 = p := by injection hp2.symm
        rw [hpp, ← hfp]
      · intro f2 hf2
        have hf2e : f2 = f + wait := by injection hf2.symm
        exact ⟨(f, a), lastq_app ex (f, a), by rw [hf2e]⟩
      · intro hcontra
        cases hcontra

theorem limAdvance_good (wait t : Nat) (acts : List Nat) :
    ∀ (fuel : Nat) (s : LimSt) (now : Nat), GoodAt wait now acts s → now ≤ t →
      GoodAt wait t acts (limAdvance wait t fuel s) := by
  intro fuel
  induction fuel with
  | zero =>
      intro s now hg hle
      exact goodAt_mono wait now t acts s hle hg
  | succ n ih =>
      intro s now hg hle
      obtain ⟨q, b, ex⟩ := s
      cases b with
      | none => exact goodAt_mono wait now t acts _ hle hg
      | some f =>
          show GoodAt wait t acts
            (if f ≤ t then limAdvance wait t n (limFire wait f ⟨q, some f, ex⟩) else ⟨q, some f, ex⟩)
          by_cases hft : f ≤ t
          · rw [if_pos hft]
            exact ih (limFire wait f ⟨q, some f, ex⟩) t
              (limFire_good wait t f acts ⟨q, some f, ex⟩
                (goodAt_mono wait now t acts _ hle hg) rfl hft) le_rfl
          · rw [if_neg hft]
            exact goodAt_mono wait now t acts _ hle hg

theorem limEnqueue_eq (wait : Nat) (s : LimSt) (t a : Nat) :
    limEnqueue wait s (t, a) =
      (match (limAdvance wait t (s.queue.length + 1) s).busy with
       | some _ => (⟨(limAdvance wait t (s.queue.length + 1) s).queue ++ [a],
           (limAdvance wait t (s.queue.length + 1) s).busy,
           (limAdvance wait t (s.queue.length + 1) s).execs⟩ : LimSt)
       | none =>
           match (limAdvance wait t (s.queue.length + 1) s).queue ++ [a] with
           | [] => (⟨(limAdvance wait t (s.queue.length + 1) s).queue ++ [a],
               (limAdvance wait t (s.queue.length + 1) s).busy,
               (limAdvance wait t (s.queue.length + 1) s).execs⟩ : LimSt)
           | x :: rest => ⟨rest, some (t + wait),
               (limAdvance wait t (s.queue.length + 1) s).execs ++ [(t, x)]⟩) := rfl

theorem limPush_good (wait t a : Nat) (acts : List Nat) (s1 : LimSt)
    (hg : GoodAt wait t acts s1) :
    GoodAt wait t (acts ++ [a])
      (match s1.busy with
       | some _ => (⟨s1.queue ++ [a], s1.busy, s1.execs⟩ : LimSt)
       | none =>
           match s1.queue ++ [a] with
           | [] => (⟨s1.queue ++ [a], s1.busy, s1.execs⟩ : LimSt)
           | x :: rest => ⟨rest, some (t + wait), s1.execs ++ [(t, x)]⟩) := by
  obtain ⟨q, b, ex⟩ := s1
  obtain ⟨h1, h2, h3, h4⟩ := hg
  cases b with
  | some f =>
      refine ⟨?_, h2, ?_, ?_⟩
      · show ex.map Prod.snd ++ (q ++ [a]) = acts ++ [a]
        rw [← List.append_assoc]
        show ex.map Prod.snd ++ q ++ [a] = acts ++ [a]
        rw [h1]
      · intro f2 hf2
        exact h3 f2 hf2
      · intro hc; cases hc
  | none =>
      obtain ⟨hq, hlast⟩ := h4 rfl
      subst hq
      show GoodAt wait t (acts ++ [a]) ⟨[], some (t + wait), ex ++ [(t, a)]⟩
      refine ⟨?_, ?_, ?_, ?_⟩
      · show (ex ++ [(t, a)]).map Prod.snd ++ [] = acts ++ [a]
        rw [List.append_nil, List.map_append]
        show ex.map Prod.snd ++ [a] = acts ++ [a]
        have hex : ex.map Prod.snd = acts := by rw [← h1, List.append_nil]
        rw [hex]
      · exact chain_app_one wait ex (t, a) h2 (fun p hp => hlast p hp)
      · intro f2 hf2
        have hf2e : f2 = t + wait := by injection hf2.symm
        exact ⟨(t, a), lastq_app ex (t, a), by rw [hf2e]⟩
      · intro hc; cases hc

theorem limEnqueue_good (wait : Nat) (acts : List Nat) (s : LimSt) (now t a : Nat)
    (hg : GoodAt wait now acts s) (hle : now ≤ t) :
    GoodAt wait t (acts ++ [a]) (limEnqueue wait s (t, a)) := by
  rw [limEnqueue_eq]
  exact limPush_good wait t a acts (limAdvance wait t (s.queue.length + 1) s)
    (limAdvance_good wait t acts (s.queue.length + 1) s now hg hle)

theorem limDrain_noop (wait : Nat) (fuel : Nat) (s : LimSt) (hb : s.busy = none) :
    limDrain wait fuel s = s := by
  cases fuel with
  | zero => rfl
  | succ n =>
      obtain ⟨q, b, ex⟩ := s
      cases b with
      | none => rfl
      | some f => cases hb

theorem limDrain_done (wait : Nat) (acts : List Nat) :
    ∀ (fuel : Nat) (s : LimSt) (now : Nat), s.queue.length < fuel → GoodAt wait now acts s →
      (limDrain wait fuel s).busy = none ∧ (limDrain wait fuel s).queue = [] ∧
      (limDrain wait fuel s).execs.map Prod.snd = acts ∧
      List.Chain' (fun p q : Nat × Nat => p.1 + wait ≤ q.1) (limDrain wait fuel s).execs := by
  intro fuel
  induction fuel with
  | zero =>
      intro s now hlen _
      exact absurd hlen (Nat.not_lt_zero _)
  | succ n ih =>
      intro s now hlen hg
      obtain ⟨q, b, ex⟩ := s
      cases b with
      | none =>
          obtain ⟨hq0, _⟩ := hg.2.2.2 rfl
          have hq : q = [] := hq0
          show (⟨q, none, ex⟩ : LimSt).busy = none ∧ (⟨q, none, ex⟩ : LimSt).queue = [] ∧
            (⟨q, none, ex⟩ : LimSt).execs.map Prod.snd = acts ∧
            List.Chain' (fun p q2 : Nat × Nat => p.1 + wait ≤ q2.1) (⟨q, none, ex⟩ : LimSt).execs
          refine ⟨rfl, hq, ?_, hg.2.1⟩
          have h1 : ex.map Prod.snd ++ q = acts := hg.1
          rw [hq, List.append_nil] at h1
          exact h1
      | some f =>
          cases q with
          | nil =>
              have hg2 := limFire_good wait (max now f) f acts ⟨[], some f, ex⟩
                (goodAt_mono wait now (max now f) acts _ (le_max_left _ _) hg) rfl
                (le_max_right _ _)
              show (limDrain wait n ⟨[], none, ex⟩).busy = none ∧
                (limDrain wait n ⟨[], none, ex⟩).queue = [] ∧
                (limDrain wait n ⟨[], none, ex⟩).execs.map Prod.snd = acts ∧
                List.Chain' (fun p q2 : Nat × Nat => p.1 + wait ≤ q2.1)
                  (limDrain wait n ⟨[], none, ex⟩).execs
              rw [limDrain_noop wait n ⟨[], none, ex⟩ rfl]
              refine ⟨rfl, rfl, ?_, ?_⟩
              · have g1 : ex.map Prod.snd ++ [] = acts := hg2.1
                rw [List.append_nil] at g1
                exact g1
              · exact hg2.2.1
          | cons x rest =>
              have hg2 := limFire_good wait (max now f) f acts ⟨x :: rest, some f, ex⟩
                (goodAt_mono wait now (max now f) acts _ (le_max_left _ _) hg) rfl
                (le_max_right _ _)
              show (limDrain wait n ⟨rest, some (f + wait), ex ++ [(f, x)]⟩).busy = none ∧
                (limDrain wait n ⟨rest, some (f + wait), ex ++ [(f, x)]⟩).queue = [] ∧
                (limDrain wait n ⟨rest, some (f + wait), ex ++ [(f, x)]⟩).execs.map Prod.snd
                  = acts ∧
                List.Chain' (fun p q2 : Nat × Nat => p.1 + wait ≤ q2.1)
                  (limDrain wait n ⟨rest, some (f + wait), ex ++ [(f, x)]⟩).execs
              refine ih ⟨rest, some (f + wait), ex ++ [(f, x)]⟩ (max now f) ?_ hg2
              show rest.length < n
              have hlen2 : (x :: rest).length < n + 1 := hlen
              rw [List.length_cons] at hlen2
              omega

theorem limFold_good (wait : Nat) :
    ∀ (events : List (Nat × Nat)) (acts : List Nat) (now : Nat) (s : LimSt),
      GoodAt wait now acts s → (∀ e ∈ events, now ≤ e.1) →
      List.Pairwise (fun p q : Nat × Nat => p.1 ≤ q.1) events →
      ∃ n2, GoodAt wait n2 (acts ++ events.map Prod.snd)
        (events.foldl (limEnqueue wait) s) := by
  intro events
  induction events with
  | nil =>
      intro acts now s hg _ _
      refine ⟨now, ?_⟩
      rw [List.map_nil, List.append_nil]
      exact hg
  | cons e rest ih =>
      intro acts now s hg hev hsort
      obtain ⟨t, a⟩ := e
      rw [List.pairwise_cons] at hsort
      have h1 : GoodAt wait t (acts ++ [a]) (limEnqueue wait s (t, a)) :=
        limEnqueue_good wait acts s now t a hg (hev (t, a) (List.mem_cons_self _ _))
      obtain ⟨n2, h2⟩ := ih (acts ++ [a]) t (limEnqueue wait s (t, a)) h1
        (fun e2 he2 => hsort.1 e2 he2) hsort.2
      refine ⟨n2, ?_⟩
      rw [List.map_cons]
      have heq : acts ++ (a :: rest.map Prod.snd) = (acts ++ [a]) ++ rest.map Prod.snd := by
        rw [List.append_assoc, List.singleton_append]
      rw [heq]
      exact h2

/-- Claim C5: for every time-ordered sequence of enqueued actions, the
`limiter` executes them in submission order with no action dropped
(`execs` lists exactly the enqueued actions, in order), consecutive
executions are separated by at least `wait` milliseconds, and after the
scheduled timers run to quiescence the queue is empty and no invocation
is in flight (the model's single `busy` slot — the `isCalled` flag —
enforces at most one invocation in flight at any time). -/
theorem limiter_order_spacing_lossless (wait : Nat) (events : List (Nat × Nat))
    (hsorted : List.Pairwise (fun p q : Nat × Nat => p.1 ≤ q.1) events) :
    (runLimiter wait events).execs.map Prod.snd = events.map Prod.snd ∧
    List.Chain' (fun p q : Nat × Nat => p.1 + wait ≤ q.1) (runLimiter wait events).execs ∧
    (runLimiter wait events).queue = [] ∧
    (runLimiter wait events).busy = none := by
  have hinit : GoodAt wait 0 [] limInit := by
    refine ⟨rfl, List.chain'_nil, ?_, ?_⟩
    · intro f hf
      cases hf
    · intro _
      exact ⟨rfl, fun p hp => by cases hp⟩
  obtain ⟨n2, hg⟩ := limFold_good wait events [] 0 limInit hinit
    (fun e _ => Nat.zero_le _) hsorted
  rw [List.nil_append] at hg
  have hd := limDrain_done wait (events.map Prod.snd)
    ((events.foldl (limEnqueue wait) limInit).queue.length + 1)
    (events.foldl (limEnqueue wait) limInit) n2 (Nat.lt_succ_self _) hg
  have hrun : runLimiter wait events
      = limDrain wait ((events.foldl (limEnqueue wait) limInit).queue.length + 1)
          (events.foldl (limEnqueue wait) limInit) := rfl
  rw [hrun]
  exact ⟨hd.2.2.1, hd.2.2.2, hd.2.1, hd.1⟩

/-- Witness for C5: three actions enqueued at times 0, 0 and 25 with
`wait = 10` execute in order at times 0, 10 and 25. -/
theorem limiter_order_spacing_lossless_witness :
    List.Pairwise (fun p q : Nat × Nat => p.1 ≤ q.1) [(0, 1), (0, 2), (25, 3)] ∧
    ((runLimiter 10 [(0, 1), (0, 2), (25, 3)]).execs.map Prod.snd
        = ([(0, 1), (0, 2), (25, 3)] : List (Nat × Nat)).map Prod.snd ∧
      List.Chain' (fun p q : Nat × Nat => p.1 + 10 ≤ q.1)
        (runLimiter 10 [(0, 1), (0, 2), (25, 3)]).execs ∧
      (runLimiter 10 [(0, 1), (0, 2), (25, 3)]).queue = [] ∧
      (runLimiter 10 [(0, 1), (0, 2), (25, 3)]).busy = none) :=
  ⟨by decide, limiter_order_spacing_lossless 10 [(0, 1), (0, 2), (25, 3)] (by decide)⟩
